import Mathlib

/-!
Verification of the NTLM hash-reuse analyzer (`analyze-ntlm.py`).

The program is embedded shallowly: Python strings become `List Char`,
Python `str.lower()` becomes a `Char.toLower` map (faithful on the ASCII
usernames the tool processes), `str.split(sep)` becomes `splitOnChar`,
the insertion-ordered `dict`/`defaultdict` becomes an association list in
key-first-appearance order, and `sorted(..., key=len, reverse=True)`
(a stable descending sort) becomes the stable insertion sort `sortDesc`.
File access is modelled by passing the file content as an optional list
of lines (`none` = the file does not exist), and `sys.exit(1)` becomes
an `Except` error value carrying the error kind and the exit status.
-/

namespace AnalyzeNtlm

/-- A Python string, modelled as its list of characters. -/
abbrev Str := List Char

/-- Python `str.lower()` (ASCII range, which is what `Char.toLower` maps). -/
def lowerStr (l : Str) : Str := l.map Char.toLower

/-- Python `str.split(sep)` for a one-character separator: the list of
(possibly empty) segments between occurrences of `sep`.  Always nonempty. -/
def splitOnChar (sep : Char) : Str → List Str
  | [] => [[]]
  | c :: cs =>
    match splitOnChar sep cs with
    | [] => [[]]
    | r :: rs => if c = sep then [] :: r :: rs else (c :: r) :: rs

/-- Python `s.split(sep)[-1]`: the segment after the last occurrence of
`sep` (the whole string when `sep` does not occur). -/
def lastSegment (sep : Char) (l : Str) : Str := (splitOnChar sep l).getLastD []

/-- Python `str.strip()`: remove leading and trailing whitespace. -/
def trim (l : Str) : Str :=
  ((l.dropWhile Char.isWhitespace).reverse.dropWhile Char.isWhitespace).reverse

/-- `EMPTY_HASH = "31d6cfe0d16ae931b73c59d7e0c089c0"` (line 18). -/
def EMPTY_HASH : Str := "31d6cfe0d16ae931b73c59d7e0c089c0".data

/-- `PREFIXES = ("a.", "adm.", "adm_", "admin", "da.", "da_")` (line 21). -/
def PREFIXES : List Str :=
  ["a.".data, "adm.".data, "adm_".data, "admin".data, "da.".data, "da_".data]

/-- `SUFFIXES = ("_adm", ".admin", "_admin", ".a", "_da", ".da")` (line 22). -/
def SUFFIXES : List Str :=
  ["_adm".data, ".admin".data, "_admin".data, ".a".data, "_da".data, ".da".data]

/-- The repeated idiom `u.split("\\")[-1].lower() if "\\" in u else u.lower()`
(lines 71-74, 90-93, 140, 168): domain-strip, then lower-case. -/
def cleanName (u : Str) : Str :=
  if '\\' ∈ u then lowerStr (lastSegment '\\' u) else lowerStr u

/-- `get_base_username` (lines 66-86): domain-strip and lower-case, then
remove the first matching admin name part: first matching entry of
`PREFIXES` from the front, otherwise first matching entry of `SUFFIXES`
from the back, otherwise return the cleaned name unchanged. -/
def get_base_username (full_username : Str) : Str :=
  let user := cleanName full_username
  match PREFIXES.find? (fun p => p.isPrefixOf user) with
  | some p => user.drop p.length
  | none =>
    match SUFFIXES.find? (fun s => s.isSuffixOf user) with
    | some s => user.take (user.length - s.length)
    | none => user

/-- `is_pattern_admin` (lines 88-97): does the cleaned name start with any
entry of `PREFIXES` or end with any entry of `SUFFIXES`? -/
def is_pattern_admin (full_username : Str) : Bool :=
  let user := cleanName full_username
  PREFIXES.any (fun p => p.isPrefixOf user) || SUFFIXES.any (fun s => s.isSuffixOf user)

/-- `load_privileged_users` (lines 45-64).  The optional path argument and
the file system are modelled together: `none` = no `-p` argument,
`some none` = path given but the file does not exist, `some (some lines)` =
the file's lines.  Returns the privileged set (as a duplicate-free list;
only membership is meaningful) paired with whether the warning was
printed.  In every case the function returns (the run proceeds). -/
def load_privileged_users (filepath : Option (Option (List Str))) : List Str × Bool :=
  match filepath with
  | none => ([], false)
  | some none => ([], true)
  | some (some fileLines) =>
    (fileLines.foldl (fun acc line =>
        let u := lowerStr (trim line)
        if u = [] then acc
        else if '\\' ∈ u then acc.insert (lastSegment '\\' u) else acc.insert u)
      [],
     false)

/-- One iteration of the parsing loop (lines 111-123): trim, skip empty or
short lines, take field 0 verbatim and field 3 lower-cased, and drop the
record when the hash is `EMPTY_HASH` and `--include-empty` is off. -/
def parseLine (include_empty : Bool) (raw : Str) : Option (Str × Str) :=
  let line := trim raw
  if line = [] then none
  else
    let parts := splitOnChar ':' line
    if parts.length < 4 then none
    else
      let user := parts.headD []
      let nt_hash := lowerStr (parts.getD 3 [])
      if include_empty = false ∧ nt_hash = EMPTY_HASH then none
      else some (user, nt_hash)

/-- The sequence of `(username, nt_hash)` records accepted by the parsing
loop, in input order. -/
def parseRecords (include_empty : Bool) (lines : List Str) : List (Str × Str) :=
  lines.filterMap (parseLine include_empty)

/-- `hash_map[nt_hash].append(user)` on an insertion-ordered
`defaultdict(list)`: append to the existing group, or add a new key at
the end. -/
def addRecord (m : List (Str × List Str)) (nt_hash : Str) (user : Str) : List (Str × List Str) :=
  if nt_hash ∈ m.map Prod.fst then
    m.map (fun kv => if kv.1 = nt_hash then (kv.1, kv.2 ++ [user]) else kv)
  else m ++ [(nt_hash, [user])]

/-- The `hash_map` built by the parsing loop (lines 102, 123), as an
association list whose key order is the order of first appearance. -/
def hash_map (records : List (Str × Str)) : List (Str × List Str) :=
  records.foldl (fun m r => addRecord m r.2 r.1) []

/-- `shared_hashes = {k: v for k, v in hash_map.items() if len(v) > 1}`
(line 129), keeping the dict's key order. -/
def shared_hashes (records : List (Str × Str)) : List (Str × List Str) :=
  (hash_map records).filter (fun kv => decide (1 < kv.2.length))

/-- Stable insertion of `x` into `l`: `x` goes before the first element
whose key is not greater than `key x`. -/
def insertDesc {α : Type} (key : α → Nat) (x : α) : List α → List α
  | [] => [x]
  | y :: ys => if key x < key y then y :: insertDesc key x ys else x :: y :: ys

/-- Stable sort by `key`, descending — the semantics of Python's
`sorted(items, key=..., reverse=True)`. -/
def sortDesc {α : Type} (key : α → Nat) : List α → List α
  | [] => []
  | x :: xs => insertDesc key x (sortDesc key xs)

/-- `sorted_hashes = sorted(shared_hashes.items(), key=lambda item: len(item[1]), reverse=True)`
(line 130). -/
def sorted_hashes (records : List (Str × Str)) : List (Str × List Str) :=
  sortDesc (fun kv => kv.2.length) (shared_hashes records)

/-- `total_priv_reuse` (lines 133-142): across the given groups, the number
of member occurrences whose cleaned name is in the privileged set. -/
def total_priv_reuse (groups : List (Str × List Str)) (priv_users : List Str) : Nat :=
  (groups.map (fun g => g.2.countP (fun u => decide (cleanName u ∈ priv_users)))).sum

/-- `total_self_reuse` (lines 144-150): the number of groups whose list of
base names has fewer distinct values than elements (`len(set(base_names)) <
len(base_names)`), counted once per group. -/
def total_self_reuse (groups : List (Str × List Str)) : Nat :=
  groups.countP (fun g =>
    decide ((g.2.map get_base_username).dedup.length < (g.2.map get_base_username).length))

/-- The four display classifications of lines 173-188. -/
inductive Tag : Type
  | privileged
  | selfReuse
  | patternSuspected
  | standard
deriving DecidableEq

/-- The per-member if/elif/elif/else chain of lines 173-188, evaluated with
the member's group context `group_base_names`. -/
def classify (priv_users : List Str) (group_base_names : List Str) (u : Str) : Tag :=
  if cleanName u ∈ priv_users then Tag.privileged
  else if 1 < group_base_names.count (get_base_username u) then Tag.selfReuse
  else if is_pattern_admin u = true then Tag.patternSuspected
  else Tag.standard

/-- The detail loop of lines 161-188: classify every member of a group
against the group's own base-name list. -/
def tagGroup (priv_users : List Str) (g : Str × List Str) : Str × List (Str × Tag) :=
  let group_base_names := g.2.map get_base_username
  (g.1, g.2.map (fun u => (u, classify priv_users group_base_names u)))

/-- The error taxonomy of the fatal paths (lines 104-106, 124-126). -/
inductive RunError : Type
  | fileNotFound
  | ioError
deriving DecidableEq

/-- Everything `analyze_hashes` computes and prints on a successful run. -/
structure AnalysisResult : Type where
  total_unique_hashes : Nat
  shared_group_count : Nat
  priv_reuse_instances : Nat
  self_reuse_groups : Nat
  tagged : List (Str × List (Str × Tag))
deriving DecidableEq

/-- `analyze_hashes` (lines 99-193).  The dump file is `none` when the
path does not exist, in which case the run terminates with exit status 1
after the fatal diagnostic (modelled by `Except.error`) and produces no
summary and no per-group output. -/
def analyze_hashes (dump : Option (List Str)) (priv_file : Option (Option (List Str)))
    (include_empty : Bool) : Except (RunError × Nat) AnalysisResult :=
  let priv_users := (load_privileged_users priv_file).1
  match dump with
  | none => Except.error (RunError.fileNotFound, 1)
  | some fileLines =>
    let records := parseRecords include_empty fileLines
    let sorted := sorted_hashes records
    Except.ok
      { total_unique_hashes := (hash_map records).length
        shared_group_count := (shared_hashes records).length
        priv_reuse_instances := total_priv_reuse sorted priv_users
        self_reuse_groups := total_self_reuse sorted
        tagged := sorted.map (tagGroup priv_users) }

/-- Modelled from the spec (§4.4): the per-line transform the loader is
described with — "lower-case it, strip any domain prefix (substring after
the last backslash if present)". -/
def specPrivEntry (line : Str) : Str := lastSegment '\\' (lowerStr (trim line))

/-- Modelled from the spec (§4.5): the keys of the grouping map listed in
the order their value first appears in the given sequence. -/
def firstAppearanceOrder (seen : List Str) : List Str → List Str
  | [] => []
  | h :: t =>
    if h ∈ seen then firstAppearanceOrder seen t
    else h :: firstAppearanceOrder (h :: seen) t

/-- The dump lines of the spec's first scenario (claim C1). -/
def sampleDump : List Str :=
  ["bob:1001:aad3b:E0:::".data, "adm_bob:1002:aad3b:E0:::".data, "alice:1003:aad3b:F1:::".data]

theorem char_toNat_ofNat (n : Nat) (h : n.isValidChar) : (Char.ofNat n).toNat = n := by
  simp [Char.ofNat, dif_pos h, Char.ofNatAux, Char.toNat, UInt32.toNat, BitVec.toNat_ofNatLt]

theorem char_toLower_def (c : Char) :
    c.toLower = if c.toNat ≥ 65 ∧ c.toNat ≤ 90 then Char.ofNat (c.toNat + 32) else c := rfl

theorem char_toLower_toLower (c : Char) : c.toLower.toLower = c.toLower := by
  rw [char_toLower_def c]
  by_cases h : c.toNat ≥ 65 ∧ c.toNat ≤ 90
  · rw [if_pos h, char_toLower_def]
    have hv : (c.toNat + 32).isValidChar := Or.inl (by omega)
    rw [char_toNat_ofNat _ hv, if_neg (by omega)]
  · rw [if_neg h, char_toLower_def, if_neg h]

theorem char_toLower_eq_backslash (c : Char) (h : c.toLower = '\\') : c = '\\' := by
  rw [char_toLower_def] at h
  by_cases hc : c.toNat ≥ 65 ∧ c.toNat ≤ 90
  · rw [if_pos hc] at h
    have hv : (c.toNat + 32).isValidChar := Or.inl (by omega)
    have := congrArg Char.toNat h
    rw [char_toNat_ofNat _ hv] at this
    have hbs : ('\\').toNat = 92 := rfl
    omega
  · rwa [if_neg hc] at h

theorem lowerStr_lowerStr (l : Str) : lowerStr (lowerStr l) = lowerStr l := by
  unfold lowerStr
  rw [List.map_map]
  exact List.map_congr_left (fun c _ => char_toLower_toLower c)

theorem backslash_not_mem_lowerStr (l : Str) (h : '\\' ∉ l) : '\\' ∉ lowerStr l := by
  unfold lowerStr
  intro hmem
  obtain ⟨c, hc, hlc⟩ := List.mem_map.mp hmem
  exact h (char_toLower_eq_backslash c hlc ▸ hc)

theorem splitOnChar_ne_nil (sep : Char) (l : Str) : splitOnChar sep l ≠ [] := by
  cases l with
  | nil => simp [splitOnChar]
  | cons c cs =>
    unfold splitOnChar
    cases h : splitOnChar sep cs with
    | nil => simp
    | cons r rs =>
      by_cases hc : c = sep <;> simp [hc]

theorem splitOnChar_of_not_mem (sep : Char) (l : Str) (h : sep ∉ l) : splitOnChar sep l = [l] := by
  induction l with
  | nil => rfl
  | cons c cs ih =>
    have hc : c ≠ sep := fun hc => h (hc ▸ List.mem_cons_self c cs)
    have hcs : sep ∉ cs := fun hm => h (List.mem_cons_of_mem c hm)
    unfold splitOnChar
    rw [ih hcs]
    simp [hc]

theorem splitOnChar_append (sep : Char) (x y : Str) :
    splitOnChar sep (x ++ sep :: y) = splitOnChar sep x ++ splitOnChar sep y := by
  induction x with
  | nil =>
    show splitOnChar sep (sep :: y) = splitOnChar sep [] ++ splitOnChar sep y
    cases h : splitOnChar sep y with
    | nil => exact absurd h (splitOnChar_ne_nil sep y)
    | cons r rs =>
      unfold splitOnChar
      rw [h]
      simp
  | cons c cs ih =>
    show splitOnChar sep (c :: (cs ++ sep :: y)) = splitOnChar sep (c :: cs) ++ splitOnChar sep y
    cases h1 : splitOnChar sep cs with
    | nil => exact absurd h1 (splitOnChar_ne_nil sep cs)
    | cons r rs =>
      cases h2 : splitOnChar sep (cs ++ sep :: y) with
      | nil => exact absurd h2 (splitOnChar_ne_nil sep (cs ++ sep :: y))
      | cons q qs =>
        have e1 : splitOnChar sep (c :: cs) = if c = sep then [] :: r :: rs else (c :: r) :: rs := by
          unfold splitOnChar
          rw [h1]
        have e2 : splitOnChar sep (c :: (cs ++ sep :: y)) =
            if c = sep then [] :: q :: qs else (c :: q) :: qs := by
          unfold splitOnChar
          rw [h2]
        have hqs : q :: qs = r :: (rs ++ splitOnChar sep y) := by
          rw [← List.cons_append, ← h1, ← h2]
          exact ih
        obtain ⟨hq, hqs2⟩ := List.cons.inj hqs
        subst hq
        subst hqs2
        rw [e1, e2]
        by_cases hc : c = sep <;> simp [hc]

theorem getLastD_irrel {α : Type} (l : List α) (a b : α) (h : l ≠ []) :
    l.getLastD a = l.getLastD b := by
  cases l with
  | nil => exact absurd rfl h
  | cons x xs => rw [List.getLastD_cons, List.getLastD_cons]

theorem getLastD_append_right {α : Type} (l1 l2 : List α) (a : α) (h : l2 ≠ []) :
    (l1 ++ l2).getLastD a = l2.getLastD a := by
  induction l1 generalizing a with
  | nil => rfl
  | cons b l1 ih =>
    rw [List.cons_append, List.getLastD_cons]
    have hne : l1 ++ l2 ≠ [] := by
      simp [List.append_eq_nil]
      intro _
      exact h
    rw [getLastD_irrel _ b a hne]
    exact ih a

theorem lastSegment_of_not_mem (sep : Char) (l : Str) (h : sep ∉ l) : lastSegment sep l = l := by
  unfold lastSegment
  rw [splitOnChar_of_not_mem sep l h]
  rfl

theorem lastSegment_append (sep : Char) (x y : Str) (h : sep ∉ y) :
    lastSegment sep (x ++ sep :: y) = y := by
  unfold lastSegment
  rw [splitOnChar_append, getLastD_append_right _ _ _ (splitOnChar_ne_nil sep y),
    splitOnChar_of_not_mem sep y h]
  rfl

theorem not_mem_lastSegment (sep : Char) (l : Str) : sep ∉ lastSegment sep l := by
  induction l with
  | nil =>
    simp [lastSegment, splitOnChar]
  | cons c cs ih =>
    unfold lastSegment at ih ⊢
    cases h : splitOnChar sep cs with
    | nil => exact absurd h (splitOnChar_ne_nil sep cs)
    | cons r rs =>
      have e : splitOnChar sep (c :: cs) =
          if c = sep then [] :: r :: rs else (c :: r) :: rs := by
        unfold splitOnChar
        rw [h]
      rw [e]
      rw [h] at ih
      by_cases hc : c = sep
      · rw [if_pos hc, List.getLastD_cons]
        rwa [getLastD_irrel _ [] [] (by simp)] at ih ⊢
      · rw [if_neg hc]
        cases rs with
        | nil =>
          rw [List.getLastD_cons, List.getLastD_nil]
          rw [List.getLastD_cons, List.getLastD_nil] at ih
          intro hmem
          rcases List.mem_cons.mp hmem with h1 | h1
          · exact hc h1.symm
          · exact ih h1
        | cons r2 rs2 =>
          rw [List.getLastD_cons, getLastD_irrel _ (c :: r) [] (by simp)]
          rw [List.getLastD_cons, getLastD_irrel _ r [] (by simp)] at ih
          exact ih

theorem backslash_not_mem_cleanName (u : Str) : '\\' ∉ cleanName u := by
  unfold cleanName
  by_cases h : '\\' ∈ u
  · rw [if_pos h]
    exact backslash_not_mem_lowerStr _ (not_mem_lastSegment '\\' u)
  · rw [if_neg h]
    exact backslash_not_mem_lowerStr _ h

theorem lowerStr_cleanName (u : Str) : lowerStr (cleanName u) = cleanName u := by
  unfold cleanName
  by_cases h : '\\' ∈ u <;> simp [h, lowerStr_lowerStr]

theorem cleanName_of_clean (s : Str) (h1 : '\\' ∉ s) (h2 : lowerStr s = s) : cleanName s = s := by
  unfold cleanName
  rw [if_neg h1, h2]

theorem isPrefixOf_length_le {α : Type} [BEq α] (p l : List α) (h : p.isPrefixOf l = true) :
    p.length ≤ l.length := by
  induction p generalizing l with
  | nil => simp
  | cons a as ih =>
    cases l with
    | nil => simp [List.isPrefixOf] at h
    | cons b bs =>
      simp only [List.isPrefixOf, Bool.and_eq_true] at h
      simpa using ih bs h.2

theorem isSuffixOf_length_le {α : Type} [BEq α] (s l : List α) (h : s.isSuffixOf l = true) :
    s.length ≤ l.length := by
  unfold List.isSuffixOf at h
  have := isPrefixOf_length_le _ _ h
  simpa using this

theorem find?_first {α : Type} (f : α → Bool) (pre : List α) (x : α) (post : List α)
    (hpre : ∀ q ∈ pre, f q = false) (hx : f x = true) :
    (pre ++ x :: post).find? f = some x := by
  induction pre with
  | nil => simp [List.find?, hx]
  | cons q qs ih =>
    have hq : f q = false := hpre q (List.mem_cons_self q qs)
    rw [List.cons_append, List.find?_cons, hq]
    exact ih (fun q2 hq2 => hpre q2 (List.mem_cons_of_mem q hq2))

theorem mem_of_find?_some {α : Type} (f : α → Bool) (l : List α) (x : α)
    (h : l.find? f = some x) : x ∈ l := List.mem_of_find?_eq_some h

theorem gbu_eq_of_none (u : Str)
    (hp : PREFIXES.find? (fun p => p.isPrefixOf (cleanName u)) = none)
    (hs : SUFFIXES.find? (fun s => s.isSuffixOf (cleanName u)) = none) :
    get_base_username u = cleanName u := by
  simp only [get_base_username, hp, hs]

theorem gbu_eq_of_pre (u : Str) (p : Str)
    (hp : PREFIXES.find? (fun q => q.isPrefixOf (cleanName u)) = some p) :
    get_base_username u = (cleanName u).drop p.length := by
  simp only [get_base_username, hp]

theorem gbu_eq_of_suf (u : Str) (s : Str)
    (hp : PREFIXES.find? (fun q => q.isPrefixOf (cleanName u)) = none)
    (hs : SUFFIXES.find? (fun q => q.isSuffixOf (cleanName u)) = some s) :
    get_base_username u = (cleanName u).take ((cleanName u).length - s.length) := by
  simp only [get_base_username, hp, hs]

theorem backslash_not_mem_gbu (u : Str) : '\\' ∉ get_base_username u := by
  cases hp : PREFIXES.find? (fun q => q.isPrefixOf (cleanName u)) with
  | some p =>
    rw [gbu_eq_of_pre u p hp]
    intro hmem
    exact backslash_not_mem_cleanName u (List.drop_subset _ _ hmem)
  | none =>
    cases hs : SUFFIXES.find? (fun q => q.isSuffixOf (cleanName u)) with
    | some s =>
      rw [gbu_eq_of_suf u s hp hs]
      intro hmem
      exact backslash_not_mem_cleanName u (List.take_subset _ _ hmem)
    | none =>
      rw [gbu_eq_of_none u hp hs]
      exact backslash_not_mem_cleanName u

theorem lowerStr_gbu (u : Str) : lowerStr (get_base_username u) = get_base_username u := by
  cases hp : PREFIXES.find? (fun q => q.isPrefixOf (cleanName u)) with
  | some p =>
    rw [gbu_eq_of_pre u p hp]
    unfold lowerStr
    rw [List.map_drop]
    rw [show (cleanName u).map Char.toLower = cleanName u from lowerStr_cleanName u]
  | none =>
    cases hs : SUFFIXES.find? (fun q => q.isSuffixOf (cleanName u)) with
    | some s =>
      rw [gbu_eq_of_suf u s hp hs]
      unfold lowerStr
      rw [List.map_take]
      rw [show (cleanName u).map Char.toLower = cleanName u from lowerStr_cleanName u]
    | none =>
      rw [gbu_eq_of_none u hp hs]
      exact lowerStr_cleanName u

theorem cleanName_gbu (u : Str) : cleanName (get_base_username u) = get_base_username u :=
  cleanName_of_clean _ (backslash_not_mem_gbu u) (lowerStr_gbu u)

theorem gbu_idem (u : Str)
    (hp : ∀ p ∈ PREFIXES, p.isPrefixOf (get_base_username u) = false)
    (hs : ∀ s ∈ SUFFIXES, s.isSuffixOf (get_base_username u) = false) :
    get_base_username (get_base_username u) = get_base_username u := by
  have hc : cleanName (get_base_username u) = get_base_username u := cleanName_gbu u
  have hfp : PREFIXES.find? (fun q => q.isPrefixOf (cleanName (get_base_username u))) = none := by
    rw [List.find?_eq_none]
    intro p hmem
    rw [hc]
    simp [hp p hmem]
  have hfs : SUFFIXES.find? (fun q => q.isSuffixOf (cleanName (get_base_username u))) = none := by
    rw [List.find?_eq_none]
    intro s hmem
    rw [hc]
    simp [hs s hmem]
  rw [gbu_eq_of_none (get_base_username u) hfp hfs, hc]

theorem all_PREFIXES_pos : ∀ p ∈ PREFIXES, 0 < p.length := by decide

theorem all_SUFFIXES_pos : ∀ s ∈ SUFFIXES, 0 < s.length := by decide

theorem gbu_ne_iff_pattern_admin (u : Str) :
    get_base_username u ≠ cleanName u ↔ is_pattern_admin u = true := by
  constructor
  · intro hne
    by_contra hpat
    have hpat2 : is_pattern_admin u = false := by
      cases h : is_pattern_admin u
      · rfl
      · exact absurd h hpat
    unfold is_pattern_admin at hpat2
    simp only [Bool.or_eq_false_iff, List.any_eq_false] at hpat2
    have hfp : PREFIXES.find? (fun q => q.isPrefixOf (cleanName u)) = none :=
      List.find?_eq_none.mpr (fun q hq => by simp [hpat2.1 q hq])
    have hfs : SUFFIXES.find? (fun q => q.isSuffixOf (cleanName u)) = none :=
      List.find?_eq_none.mpr (fun q hq => by simp [hpat2.2 q hq])
    exact hne (gbu_eq_of_none u hfp hfs)
  · intro hpat
    cases hfp : PREFIXES.find? (fun q => q.isPrefixOf (cleanName u)) with
    | some p =>
      have hplen : 0 < p.length :=
        all_PREFIXES_pos p (mem_of_find?_some _ _ _ hfp)
      have hmatch := List.find?_some hfp
      have hple : p.length ≤ (cleanName u).length :=
        isPrefixOf_length_le p (cleanName u) (by simpa using hmatch)
      rw [gbu_eq_of_pre u p hfp]
      intro heq
      have := congrArg List.length heq
      rw [List.length_drop] at this
      omega
    | none =>
      have hanyS : SUFFIXES.any (fun q => q.isSuffixOf (cleanName u)) = true := by
        unfold is_pattern_admin at hpat
        rcases Bool.or_eq_true_iff.mp hpat with h | h
        · obtain ⟨p, hp, hmatch⟩ := List.any_eq_true.mp h
          rw [List.find?_eq_none] at hfp
          exact absurd hmatch (by simpa using hfp p hp)
        · exact h
      obtain ⟨s, hsmem, hsmatch⟩ := List.any_eq_true.mp hanyS
      cases hfs : SUFFIXES.find? (fun q => q.isSuffixOf (cleanName u)) with
      | none =>
        rw [List.find?_eq_none] at hfs
        exact absurd hsmatch (by simpa using hfs s hsmem)
      | some s2 =>
        have hslen : 0 < s2.length :=
          all_SUFFIXES_pos s2 (mem_of_find?_some _ _ _ hfs)
        have hsmatch := List.find?_some hfs
        have hsle : s2.length ≤ (cleanName u).length :=
          isSuffixOf_length_le s2 (cleanName u) (by simpa using hsmatch)
        rw [gbu_eq_of_suf u s2 hfp hfs]
        intro heq
        have := congrArg List.length heq
        rw [List.length_take] at this
        omega

theorem classify_characterization (priv_users group_base_names : List Str) (u : Str) :
    (classify priv_users group_base_names u = Tag.privileged ↔ cleanName u ∈ priv_users)
    ∧ (classify priv_users group_base_names u = Tag.selfReuse ↔
        (cleanName u ∉ priv_users ∧ 1 < group_base_names.count (get_base_username u)))
    ∧ (classify priv_users group_base_names u = Tag.patternSuspected ↔
        (cleanName u ∉ priv_users ∧ ¬ 1 < group_base_names.count (get_base_username u)
          ∧ is_pattern_admin u = true))
    ∧ (classify priv_users group_base_names u = Tag.standard ↔
        (cleanName u ∉ priv_users ∧ ¬ 1 < group_base_names.count (get_base_username u)
          ∧ ¬ is_pattern_admin u = true)) := by
  unfold classify
  by_cases h1 : cleanName u ∈ priv_users
  · simp [h1]
  · by_cases h2 : 1 < group_base_names.count (get_base_username u)
    · simp [h1, h2]
    · by_cases h3 : is_pattern_admin u = true <;> simp [h1, h2, h3]

theorem classify_pattern_imp (priv_users group_base_names : List Str) (u : Str)
    (h : classify priv_users group_base_names u = Tag.patternSuspected) :
    is_pattern_admin u = true :=
  ((classify_characterization priv_users group_base_names u).2.2.1.mp h).2.2

theorem insertDesc_perm {α : Type} (key : α → Nat) (x : α) (l : List α) :
    (insertDesc key x l).Perm (x :: l) := by
  induction l with
  | nil => exact List.Perm.refl _
  | cons y ys ih =>
    unfold insertDesc
    by_cases h : key x < key y
    · rw [if_pos h]
      exact (ih.cons y).trans (List.Perm.swap x y ys)
    · rw [if_neg h]

theorem sortDesc_perm {α : Type} (key : α → Nat) (l : List α) : (sortDesc key l).Perm l := by
  induction l with
  | nil => exact List.Perm.refl _
  | cons x xs ih =>
    exact (insertDesc_perm key x (sortDesc key xs)).trans (ih.cons x)

theorem insertDesc_pairwise {α : Type} (key : α → Nat) (x : α) (l : List α)
    (h : l.Pairwise (fun a b => key b ≤ key a)) :
    (insertDesc key x l).Pairwise (fun a b => key b ≤ key a) := by
  induction l with
  | nil => simp [insertDesc]
  | cons y ys ih =>
    rw [List.pairwise_cons] at h
    unfold insertDesc
    by_cases hk : key x < key y
    · rw [if_pos hk]
      rw [List.pairwise_cons]
      constructor
      · intro z hz
        rcases List.mem_cons.mp (((insertDesc_perm key x ys).mem_iff).mp hz) with h1 | h1
        · subst h1
          omega
        · exact h.1 z h1
      · exact ih h.2
    · rw [if_neg hk]
      rw [List.pairwise_cons]
      constructor
      · intro z hz
        rcases List.mem_cons.mp hz with h1 | h1
        · subst h1
          omega
        · have := h.1 z h1
          omega
      · rw [List.pairwise_cons]
        exact h
  
theorem sortDesc_pairwise {α : Type} (key : α → Nat) (l : List α) :
    (sortDesc key l).Pairwise (fun a b => key b ≤ key a) := by
  induction l with
  | nil => simp [sortDesc]
  | cons x xs ih => exact insertDesc_pairwise key x (sortDesc key xs) ih

theorem insertDesc_filter_eq {α : Type} (key : α → Nat) (n : Nat) (x : α) (l : List α) :
    (insertDesc key x l).filter (fun a => decide (key a = n)) =
      if key x = n then x :: l.filter (fun a => decide (key a = n))
      else l.filter (fun a => decide (key a = n)) := by
  induction l with
  | nil =>
    by_cases h : key x = n <;> simp [insertDesc, h]
  | cons y ys ih =>
    unfold insertDesc
    by_cases hk : key x < key y
    · rw [if_pos hk, List.filter_cons, ih]
      by_cases hy : key y = n <;> by_cases hx : key x = n
      · exfalso
        omega
      · simp [List.filter_cons, hy, hx]
      · simp [List.filter_cons, hy, hx]
      · simp [List.filter_cons, hy, hx]
    · rw [if_neg hk]
      by_cases hx : key x = n <;> simp [List.filter_cons, hx]

theorem sortDesc_filter_eq {α : Type} (key : α → Nat) (n : Nat) (l : List α) :
    (sortDesc key l).filter (fun a => decide (key a = n)) =
      l.filter (fun a => decide (key a = n)) := by
  induction l with
  | nil => rfl
  | cons x xs ih =>
    show (insertDesc key x (sortDesc key xs)).filter (fun a => decide (key a = n)) = _
    rw [insertDesc_filter_eq]
    by_cases hx : key x = n
    · rw [if_pos hx, ih]
      simp [List.filter_cons, hx]
    · rw [if_neg hx, ih]
      simp [List.filter_cons, hx]

theorem addRecord_keys (m : List (Str × List Str)) (nt user : Str) :
    (addRecord m nt user).map Prod.fst =
      if nt ∈ m.map Prod.fst then m.map Prod.fst else m.map Prod.fst ++ [nt] := by
  unfold addRecord
  by_cases h : nt ∈ m.map Prod.fst
  · rw [if_pos h, if_pos h, List.map_map]
    refine List.map_congr_left ?_
    intro kv _
    by_cases hk : kv.1 = nt <;> simp [hk]
  · rw [if_neg h, if_neg h]
    simp

theorem firstAppearanceOrder_cons (seen : List Str) (a : Str) (t : List Str) :
    firstAppearanceOrder seen (a :: t) =
      if a ∈ seen then firstAppearanceOrder seen t
      else a :: firstAppearanceOrder (a :: seen) t := rfl

theorem firstAppearanceOrder_congr (l : List Str) (s1 s2 : List Str)
    (h : ∀ x, x ∈ s1 ↔ x ∈ s2) : firstAppearanceOrder s1 l = firstAppearanceOrder s2 l := by
  induction l generalizing s1 s2 with
  | nil => rfl
  | cons a t ih =>
    unfold firstAppearanceOrder
    by_cases ha : a ∈ s1
    · rw [if_pos ha, if_pos ((h a).mp ha)]
      exact ih s1 s2 h
    · rw [if_neg ha, if_neg (fun hc => ha ((h a).mpr hc))]
      congr 1
      exact ih _ _ (fun x => by simp [h x])

theorem firstAppearanceOrder_subset (l : List Str) (seen : List Str) :
    ∀ x ∈ firstAppearanceOrder seen l, x ∈ l := by
  induction l generalizing seen with
  | nil => simp [firstAppearanceOrder]
  | cons a t ih =>
    intro x hx
    unfold firstAppearanceOrder at hx
    by_cases ha : a ∈ seen
    · rw [if_pos ha] at hx
      exact List.mem_cons_of_mem a (ih seen x hx)
    · rw [if_neg ha] at hx
      rcases List.mem_cons.mp hx with h1 | h1
      · exact h1 ▸ List.mem_cons_self a t
      · exact List.mem_cons_of_mem a (ih (a :: seen) x h1)

theorem hash_map_keys_aux (rs : List (Str × Str)) (acc : List (Str × List Str)) :
    (rs.foldl (fun m r => addRecord m r.2 r.1) acc).map Prod.fst =
      acc.map Prod.fst ++ firstAppearanceOrder (acc.map Prod.fst) (rs.map Prod.snd) := by
  induction rs generalizing acc with
  | nil => simp [firstAppearanceOrder]
  | cons r rs ih =>
    show (rs.foldl (fun m r => addRecord m r.2 r.1) (addRecord acc r.2 r.1)).map Prod.fst = _
    rw [ih (addRecord acc r.2 r.1), addRecord_keys]
    rw [show (r :: rs).map Prod.snd = r.2 :: rs.map Prod.snd from rfl]
    rw [firstAppearanceOrder_cons]
    by_cases h : r.2 ∈ acc.map Prod.fst
    · rw [if_pos h, if_pos h]
    · rw [if_neg h, if_neg h]
      rw [firstAppearanceOrder_congr (rs.map Prod.snd) (acc.map Prod.fst ++ [r.2])
        (r.2 :: acc.map Prod.fst) (fun x => by simp [or_comm])]
      simp

theorem hash_map_keys (records : List (Str × Str)) :
    (hash_map records).map Prod.fst = firstAppearanceOrder [] (records.map Prod.snd) := by
  have := hash_map_keys_aux records []
  simpa [hash_map] using this

theorem hash_map_key_mem (records : List (Str × Str)) (kv : Str × List Str)
    (h : kv ∈ hash_map records) : kv.1 ∈ records.map Prod.snd := by
  have h1 : kv.1 ∈ (hash_map records).map Prod.fst := List.mem_map_of_mem Prod.fst h
  rw [hash_map_keys] at h1
  exact firstAppearanceOrder_subset _ _ kv.1 h1

theorem parseLine_skip_short (ie : Bool) (raw : Str)
    (h : (splitOnChar ':' (trim raw)).length < 4) : parseLine ie raw = none := by
  simp only [parseLine]
  by_cases h0 : trim raw = []
  · rw [if_pos h0]
  · rw [if_neg h0, if_pos h]

theorem parseLine_skip_empty (ie : Bool) (raw : Str) (h : trim raw = []) :
    parseLine ie raw = none := by
  simp only [parseLine]
  rw [if_pos h]

theorem parseLine_accept (ie : Bool) (raw : Str)
    (hlen : 4 ≤ (splitOnChar ':' (trim raw)).length)
    (hne : ie = true ∨ lowerStr ((splitOnChar ':' (trim raw)).getD 3 []) ≠ EMPTY_HASH) :
    parseLine ie raw = some ((splitOnChar ':' (trim raw)).headD [],
      lowerStr ((splitOnChar ':' (trim raw)).getD 3 [])) := by
  have h0 : trim raw ≠ [] := by
    intro h0
    rw [h0] at hlen
    simp [splitOnChar] at hlen
  simp only [parseLine]
  rw [if_neg h0, if_neg (by omega)]
  rw [if_neg]
  rintro ⟨hie, hhash⟩
  rcases hne with h | h
  · rw [h] at hie
    exact absurd hie (by decide)
  · exact h hhash

theorem parseLine_false_ne_empty (raw : Str) (r : Str × Str)
    (h : parseLine false raw = some r) : r.2 ≠ EMPTY_HASH := by
  simp only [parseLine] at h
  by_cases h0 : trim raw = []
  · rw [if_pos h0] at h
    exact absurd h (by simp)
  · rw [if_neg h0] at h
    by_cases h1 : (splitOnChar ':' (trim raw)).length < 4
    · rw [if_pos h1] at h
      exact absurd h (by simp)
    · rw [if_neg h1] at h
      by_cases h2 : lowerStr ((splitOnChar ':' (trim raw)).getD 3 []) = EMPTY_HASH
      · rw [if_pos ⟨trivial, h2⟩] at h
        exact absurd h (by simp)
      · rw [if_neg (fun hc => h2 hc.2)] at h
        have h3 := Option.some.inj h
        rw [← h3]
        exact h2

theorem parseRecords_false_ne_empty (fileLines : List Str) (r : Str × Str)
    (h : r ∈ parseRecords false fileLines) : r.2 ≠ EMPTY_HASH := by
  unfold parseRecords at h
  obtain ⟨raw, _, hsome⟩ := List.mem_filterMap.mp h
  exact parseLine_false_ne_empty raw r hsome

theorem load_priv_fold_mem (fileLines : List Str) (acc : List Str) (x : Str) :
    (x ∈ fileLines.foldl (fun acc line =>
        let u := lowerStr (trim line)
        if u = [] then acc
        else if '\\' ∈ u then acc.insert (lastSegment '\\' u) else acc.insert u) acc) ↔
      (x ∈ acc ∨ ∃ line ∈ fileLines, lowerStr (trim line) ≠ [] ∧ x = specPrivEntry line) := by
  induction fileLines generalizing acc with
  | nil => simp
  | cons l ls ih =>
    rw [List.foldl_cons, ih]
    have hentry : ∀ u : Str, u = lowerStr (trim l) →
        (if u = [] then acc
          else if '\\' ∈ u then acc.insert (lastSegment '\\' u) else acc.insert u) =
          if u = [] then acc else acc.insert (specPrivEntry l) := by
      intro u hu
      by_cases h0 : u = []
      · rw [if_pos h0, if_pos h0]
      · rw [if_neg h0, if_neg h0]
        by_cases hbs : '\\' ∈ u
        · rw [if_pos hbs]
          unfold specPrivEntry
          rw [hu]
        · rw [if_neg hbs]
          unfold specPrivEntry
          rw [hu, lastSegment_of_not_mem '\\' (lowerStr (trim l)) (hu ▸ hbs)]
    rw [hentry (lowerStr (trim l)) rfl]
    by_cases h0 : lowerStr (trim l) = []
    · rw [if_pos h0]
      constructor
      · intro h
        rcases h with h | h
        · exact Or.inl h
        · obtain ⟨line, hmem, hcond, hx⟩ := h
          exact Or.inr ⟨line, List.mem_cons_of_mem l hmem, hcond, hx⟩
      · intro h
        rcases h with h | h
        · exact Or.inl h
        · obtain ⟨line, hmem, hcond, hx⟩ := h
          rcases List.mem_cons.mp hmem with h1 | h1
          · exact absurd (h1 ▸ h0) hcond
          · exact Or.inr ⟨line, h1, hcond, hx⟩
    · rw [if_neg h0]
      rw [List.mem_insert_iff]
      constructor
      · intro h
        rcases h with h | h
        · rcases h with h | h
          · exact Or.inr ⟨l, List.mem_cons_self l ls, h0, h⟩
          · exact Or.inl h
        · obtain ⟨line, hmem, hcond, hx⟩ := h
          exact Or.inr ⟨line, List.mem_cons_of_mem l hmem, hcond, hx⟩
      · intro h
        rcases h with h | h
        · exact Or.inl (Or.inr h)
        · obtain ⟨line, hmem, hcond, hx⟩ := h
          rcases List.mem_cons.mp hmem with h1 | h1
          · exact Or.inl (Or.inl (h1 ▸ hx))
          · exact Or.inr ⟨line, h1, hcond, hx⟩

theorem countP_flatten_eq_sum (gs : List (Str × List Str)) (f : Str → Bool) :
    ((gs.map Prod.snd).flatten).countP f = (gs.map (fun g => g.2.countP f)).sum := by
  induction gs with
  | nil => rfl
  | cons g gs ih =>
    simp only [List.map_cons, List.flatten_cons, List.countP_append, List.sum_cons, ih]

theorem dedup_length_lt_iff (l : List Str) : l.dedup.length < l.length ↔ ¬ l.Nodup := by
  constructor
  · intro h hn
    rw [List.Nodup.dedup hn] at h
    omega
  · intro hn
    have hsub := List.dedup_sublist l
    have hle := hsub.length_le
    rcases Nat.lt_or_ge l.dedup.length l.length with h | h
    · exact h
    · exact absurd ((hsub.eq_of_length_le (by omega)) ▸ List.nodup_dedup l) hn

theorem not_nodup_iff_exists_dup (l : List Str) :
    ¬ l.Nodup ↔ ∃ i j : Fin l.length, i.1 < j.1 ∧ l.get i = l.get j := by
  rw [List.Nodup, List.pairwise_iff_get]
  push_neg
  constructor
  · rintro ⟨i, j, hij, heq⟩
    exact ⟨i, j, hij, heq⟩
  · rintro ⟨i, j, hij, heq⟩
    exact ⟨i, j, hij, heq⟩

theorem exists_dup_map_iff (users : List Str) :
    (∃ i j : Fin (users.map get_base_username).length, i.1 < j.1 ∧
        (users.map get_base_username).get i = (users.map get_base_username).get j) ↔
      (∃ i j : Fin users.length, i.1 < j.1 ∧
        get_base_username (users.get i) = get_base_username (users.get j)) := by
  constructor
  · rintro ⟨i, j, hij, heq⟩
    refine ⟨⟨i.1, by simpa using i.2⟩, ⟨j.1, by simpa using j.2⟩, hij, ?_⟩
    simpa [List.get_eq_getElem, List.getElem_map] using heq
  · rintro ⟨i, j, hij, heq⟩
    refine ⟨⟨i.1, by simp⟩, ⟨j.1, by simp⟩, hij, ?_⟩
    simpa [List.get_eq_getElem, List.getElem_map] using heq

theorem self_reuse_group_iff (g : Str × List Str) :
    ((g.2.map get_base_username).dedup.length < (g.2.map get_base_username).length) ↔
      (∃ i j : Fin g.2.length, i.1 < j.1 ∧
        get_base_username (g.2.get i) = get_base_username (g.2.get j)) := by
  rw [dedup_length_lt_iff, not_nodup_iff_exists_dup, exists_dup_map_iff]

/-- Claim C3: `get_base_username` takes the substring after the last backslash
(or the whole string if none) and lower-cases it (last two conjuncts), then:
if the cleaned name starts with a member of the ordered list `PREFIXES`, the
result is the remainder after removing the first matching entry in list order
and suffixes are not consulted; otherwise, if it ends with a member of the
ordered list `SUFFIXES`, the result removes the first matching entry in list
order; otherwise the cleaned name is returned unchanged.  At most one strip is
ever applied. -/
theorem base_identity_first_match (u : Str) :
    (∀ pre p post, PREFIXES = pre ++ p :: post → p.isPrefixOf (cleanName u) = true →
        (∀ q ∈ pre, q.isPrefixOf (cleanName u) = false) →
        get_base_username u = (cleanName u).drop p.length)
    ∧ ((∀ p ∈ PREFIXES, p.isPrefixOf (cleanName u) = false) →
        ∀ pre s post, SUFFIXES = pre ++ s :: post → s.isSuffixOf (cleanName u) = true →
        (∀ q ∈ pre, q.isSuffixOf (cleanName u) = false) →
        get_base_username u = (cleanName u).take ((cleanName u).length - s.length))
    ∧ ((∀ p ∈ PREFIXES, p.isPrefixOf (cleanName u) = false) →
        (∀ s ∈ SUFFIXES, s.isSuffixOf (cleanName u) = false) →
        get_base_username u = cleanName u)
    ∧ ('\\' ∉ u → cleanName u = lowerStr u)
    ∧ (∀ v w, u = v ++ '\\' :: w → '\\' ∉ w → cleanName u = lowerStr w) := by
  refine ⟨?_, ?_, ?_, ?_, ?_⟩
  · intro pre p post heq hp hpre
    have hfind : PREFIXES.find? (fun q => q.isPrefixOf (cleanName u)) = some p := by
      rw [heq]
      exact find?_first _ pre p post hpre hp
    exact gbu_eq_of_pre u p hfind
  · intro hnopre pre s post heq hs hpre
    have hfp : PREFIXES.find? (fun q => q.isPrefixOf (cleanName u)) = none :=
      List.find?_eq_none.mpr (fun q hq => by simp [hnopre q hq])
    have hfind : SUFFIXES.find? (fun q => q.isSuffixOf (cleanName u)) = some s := by
      rw [heq]
      exact find?_first _ pre s post hpre hs
    exact gbu_eq_of_suf u s hfp hfind
  · intro hnopre hnosuf
    exact gbu_eq_of_none u
      (List.find?_eq_none.mpr (fun q hq => by simp [hnopre q hq]))
      (List.find?_eq_none.mpr (fun q hq => by simp [hnosuf q hq]))
  · intro h
    unfold cleanName
    rw [if_neg h]
  · intro v w heq hw
    subst heq
    unfold cleanName
    rw [if_pos (List.mem_append.mpr (Or.inr (List.mem_cons_self _ _))),
      lastSegment_append '\\' v w hw]

/-- Witness for claim C3 at `CORP\\ADM_Bob`: the `adm_` entry is the first
matching member of `PREFIXES` and stripping it yields `bob`. -/
theorem base_identity_first_match_witness :
    get_base_username "CORP\\ADM_Bob".data = "bob".data := by
  have h := (base_identity_first_match "CORP\\ADM_Bob".data).1
    ["a.".data, "adm.".data] "adm_".data ["admin".data, "da.".data, "da_".data]
    (by decide) (by decide) (by decide)
  rw [h]
  decide

/-- Claim C4: on any output of `get_base_username` that no entry of `PREFIXES`
and no entry of `SUFFIXES` matches, `get_base_username` is the identity, so
applying it twice equals applying it once for already-normalized strings. -/
theorem base_identity_idempotent (u : Str)
    (hp : ∀ p ∈ PREFIXES, p.isPrefixOf (get_base_username u) = false)
    (hs : ∀ s ∈ SUFFIXES, s.isSuffixOf (get_base_username u) = false) :
    get_base_username (get_base_username u) = get_base_username u :=
  gbu_idem u hp hs

/-- Witness for claim C4 at `DOM\\ADM_bob`, whose base identity `bob` has no
matching admin name part. -/
theorem base_identity_idempotent_witness :
    get_base_username (get_base_username "DOM\\ADM_bob".data) =
      get_base_username "DOM\\ADM_bob".data :=
  base_identity_idempotent "DOM\\ADM_bob".data (by decide) (by decide)

/-- Counterexample to claim C1 as stated: in the spec's scenario run (dump
lines `bob:1001:aad3b:E0:::`, `adm_bob:1002:aad3b:E0:::`,
`alice:1003:aad3b:F1:::`, empty privileged list, include_empty off), member
`bob` is tagged Self-Reuse, not Standard — `bob`'s own base identity `bob`
occurs twice among the group's base identities, and the classification rule
counts the member itself. -/
theorem scenario_bob_not_standard :
    (analyze_hashes (some sampleDump) none false).toOption.map AnalysisResult.tagged =
      some [("e0".data, [("bob".data, Tag.selfReuse), ("adm_bob".data, Tag.selfReuse)])] ∧
    Tag.selfReuse ≠ Tag.standard := by
  decide

/-- Claim C1 as amended: the scenario run produces exactly one Reuse Group,
for hash `e0`, with members `[bob, adm_bob]` in that order; both `bob` and
`adm_bob` are classified Self-Reuse (not `bob` Standard as the claim stated),
and the self-reuse-group summary count equals 1. -/
theorem scenario_one_group_self_reuse :
    analyze_hashes (some sampleDump) none false =
      Except.ok
        { total_unique_hashes := 2
          shared_group_count := 1
          priv_reuse_instances := 0
          self_reuse_groups := 1
          tagged := [("e0".data,
            [("bob".data, Tag.selfReuse), ("adm_bob".data, Tag.selfReuse)])] } := by
  rfl

/-- Claim C2: every member of every Reuse Group gets exactly one of the four
classifications, by strict priority.  The first conjunct records that the
reporting loop (`tagGroup`) tags each member with `classify` applied to the
member's own group context; the four equivalences then characterise each
possible outcome of `classify`: Privileged exactly when the cleaned name is in
the privileged set, otherwise Self-Reuse exactly when the member's base
identity occurs more than once among the group's base identities, otherwise
Pattern-Suspected exactly when `is_pattern_admin` holds, otherwise Standard.
In particular a user that is both privileged-listed and pattern-matching is
Privileged only. -/
theorem classification_priority (priv_users group_base_names : List Str) (u : Str) :
    (∀ h members, (tagGroup priv_users (h, members)).2 =
        members.map (fun v => (v, classify priv_users
          (members.map get_base_username) v)))
    ∧ (classify priv_users group_base_names u = Tag.privileged ↔ cleanName u ∈ priv_users)
    ∧ (classify priv_users group_base_names u = Tag.selfReuse ↔
        (cleanName u ∉ priv_users ∧ 1 < group_base_names.count (get_base_username u)))
    ∧ (classify priv_users group_base_names u = Tag.patternSuspected ↔
        (cleanName u ∉ priv_users ∧ ¬ 1 < group_base_names.count (get_base_username u)
          ∧ is_pattern_admin u = true))
    ∧ (classify priv_users group_base_names u = Tag.standard ↔
        (cleanName u ∉ priv_users ∧ ¬ 1 < group_base_names.count (get_base_username u)
          ∧ ¬ is_pattern_admin u = true)) :=
  ⟨fun _ _ => rfl, classify_characterization priv_users group_base_names u⟩

/-- Claim C8: when the dump file path does not exist the run fails with the
FileNotFound error kind and exit status 1, producing no analysis result (no
summary output and no per-group output), whatever the privileged-list
argument and the include-empty flag are. -/
theorem missing_dump_file_fatal (priv_file : Option (Option (List Str))) (ie : Bool) :
    analyze_hashes none priv_file ie = Except.error (RunError.fileNotFound, 1) := rfl

/-- Counterexample to claim C10 as stated: in the group `[adm_x, y]` (base
identities `[x, y]`), member `adm_x` is classified Pattern-Suspected, yet its
base identity `x` DIFFERS from its domain-stripped lower-cased name `adm_x` —
the claim asserted they must be equal. -/
theorem pattern_tag_base_differs :
    classify [] ["x".data, "y".data] "adm_x".data = Tag.patternSuspected ∧
      get_base_username "adm_x".data ≠ cleanName "adm_x".data := by
  decide

/-- Claim C10 as amended: `get_base_username u` differs from the
domain-stripped lower-cased form of `u` exactly when `is_pattern_admin u` is
true; consequently a member can be classified Pattern-Suspected only if its
base identity DIFFERS from its domain-stripped lower-cased name (the claim
stated "equals"). -/
theorem base_changes_iff_pattern (u : Str) :
    (get_base_username u ≠ cleanName u ↔ is_pattern_admin u = true)
    ∧ (∀ priv_users group_base_names, classify priv_users group_base_names u =
        Tag.patternSuspected → get_base_username u ≠ cleanName u) := by
  refine ⟨gbu_ne_iff_pattern_admin u, ?_⟩
  intro priv_users group_base_names h
  exact (gbu_ne_iff_pattern_admin u).mpr (classify_pattern_imp priv_users group_base_names u h)

/-- Witness for the amended claim C10: discharging the Pattern-Suspected
hypothesis at the concrete member `adm_x` of group with base identities
`[x, y]`. -/
theorem base_changes_iff_pattern_witness :
    get_base_username "adm_x".data ≠ cleanName "adm_x".data :=
  (base_changes_iff_pattern "adm_x".data).2 [] ["x".data, "y".data] (by decide)

/-- Claim C5: the Reuse Groups surfaced for reporting are exactly the Hash
Groups with more than one member (first conjunct), the reported order is a
permutation of them (second) that is non-increasing in member count (third)
and stable: groups of equal member count keep their `shared_hashes` order
(fourth), which is the order of first appearance of their hash among the
parsed records because the map's keys are in first-appearance order
(fifth). -/
theorem reuse_groups_filter_sorted (fileLines : List Str) (ie : Bool) :
    (∀ g, g ∈ shared_hashes (parseRecords ie fileLines) ↔
        g ∈ hash_map (parseRecords ie fileLines) ∧ 1 < g.2.length)
    ∧ (sorted_hashes (parseRecords ie fileLines)).Perm (shared_hashes (parseRecords ie fileLines))
    ∧ (sorted_hashes (parseRecords ie fileLines)).Pairwise (fun a b => b.2.length ≤ a.2.length)
    ∧ (∀ n, (sorted_hashes (parseRecords ie fileLines)).filter
          (fun kv => decide (kv.2.length = n)) =
        (shared_hashes (parseRecords ie fileLines)).filter (fun kv => decide (kv.2.length = n)))
    ∧ (hash_map (parseRecords ie fileLines)).map Prod.fst =
        firstAppearanceOrder [] ((parseRecords ie fileLines).map Prod.snd) := by
  refine ⟨?_, sortDesc_perm _ _, sortDesc_pairwise _ _,
    fun n => sortDesc_filter_eq _ n _, hash_map_keys _⟩
  intro g
  unfold shared_hashes
  rw [List.mem_filter]
  simp

/-- Claim C7: the privileged-reuse summary equals the number of member
occurrences across all Reuse Groups whose cleaned name is in the privileged
set (each occurrence counted), and the self-reuse summary equals the number
of Reuse Groups containing two distinct member positions with the same base
identity (one increment per qualifying group). -/
theorem summary_statistics (fileLines : List Str) (ie : Bool) (priv_users : List Str) :
    (total_priv_reuse (sorted_hashes (parseRecords ie fileLines)) priv_users =
      (((shared_hashes (parseRecords ie fileLines)).map Prod.snd).flatten).countP
        (fun v => decide (cleanName v ∈ priv_users)))
    ∧ (total_self_reuse (sorted_hashes (parseRecords ie fileLines)) =
      (shared_hashes (parseRecords ie fileLines)).countP (fun g =>
        decide (∃ i j : Fin g.2.length, i.1 < j.1 ∧
          get_base_username (g.2.get i) = get_base_username (g.2.get j)))) := by
  constructor
  · unfold total_priv_reuse sorted_hashes
    rw [countP_flatten_eq_sum]
    exact List.Perm.sum_eq ((sortDesc_perm _ _).map _)
  · unfold total_self_reuse sorted_hashes
    rw [List.Perm.countP_eq _ (sortDesc_perm _ _)]
    exact List.countP_congr (fun g _ => by
      simp only [decide_eq_true_eq]
      exact self_reuse_group_iff g)

/-- Claim C6: the parser trims each line and skips it when it has fewer than
4 colon-delimited fields or is empty; every accepted line yields the record
(field 0 verbatim, field 3 lower-cased); and with include-empty off, no key
of the hash map (hence no group, and none of the counts derived from the
groups) is the empty-password hash. -/
theorem dump_parser_contract (ie : Bool) (fileLines : List Str) (raw : Str) :
    ((splitOnChar ':' (trim raw)).length < 4 → parseLine ie raw = none)
    ∧ (trim raw = [] → parseLine ie raw = none)
    ∧ (4 ≤ (splitOnChar ':' (trim raw)).length →
        (ie = true ∨ lowerStr ((splitOnChar ':' (trim raw)).getD 3 []) ≠ EMPTY_HASH) →
        parseLine ie raw = some ((splitOnChar ':' (trim raw)).headD [],
          lowerStr ((splitOnChar ':' (trim raw)).getD 3 [])))
    ∧ (∀ kv ∈ hash_map (parseRecords false fileLines), kv.1 ≠ EMPTY_HASH) := by
  refine ⟨parseLine_skip_short ie raw, parseLine_skip_empty ie raw,
    parseLine_accept ie raw, ?_⟩
  intro kv hkv hceq
  have hmem := hash_map_key_mem _ kv hkv
  obtain ⟨r, hr, hr2⟩ := List.mem_map.mp hmem
  exact parseRecords_false_ne_empty fileLines r hr (by rw [hr2, hceq])

/-- Witness for claim C6: a whitespace line is skipped, the line
`bob:1:lm:AA:::` is accepted as `(bob, aa)`, and the sole group key of a
concrete run is not the empty-password hash. -/
theorem dump_parser_contract_witness :
    parseLine false "  ".data = none ∧
    parseLine false "bob:1:lm:AA:::".data = some ("bob".data, "aa".data) ∧
    ("aa".data : Str) ≠ EMPTY_HASH := by
  refine ⟨(dump_parser_contract false [] "  ".data).2.1 (by decide), ?_, ?_⟩
  · have h := (dump_parser_contract false [] "bob:1:lm:AA:::".data).2.2.1
      (by decide) (Or.inr (by decide))
    rw [h]
    rfl
  · exact (dump_parser_contract false ["b:1:l:AA:::".data] "x".data).2.2.2
      ("aa".data, ["b".data]) (by decide)

/-- Claim C9: the privileged set contains exactly, for every line of the list
file whose trimmed lower-cased form is nonempty, that form with any domain
prefix removed (the substring after the last backslash); a given-but-missing
file yields the empty set with the warning flag (the run proceeds); no path
argument yields the empty set without the warning. -/
theorem privileged_loader_contract (fileLines : List Str) :
    (∀ x, x ∈ (load_privileged_users (some (some fileLines))).1 ↔
        ∃ line ∈ fileLines, lowerStr (trim line) ≠ [] ∧ x = specPrivEntry line)
    ∧ load_privileged_users (some none) = ([], true)
    ∧ load_privileged_users none = ([], false) := by
  refine ⟨?_, rfl, rfl⟩
  intro x
  have h := load_priv_fold_mem fileLines [] x
  simpa using h

end AnalyzeNtlm
